import Mathlib

/-! The expiring cache of pokedexcli (`pokecache/pokecache.go`) and its callers in `main.go`.

A shallow embedding of the cache, of the three fetch helpers that use it and of the
command loop that dispatches to them.

* A Go `[]byte` is `ByteSlice`: `none` is the nil slice, `some bs` a non-nil
  slice holding the bytes `bs` (so `some []` is the empty, non-nil slice).
* `time.Time` and `time.Duration` are integers (a count of clock units); `t.After(u)` is `u < t`
  and `t.Add(d)` is `t + d`. The clock read by `time.Now()` is an explicit argument.
* A Go `map[string]cacheEntry` is an association list of its key/entry pairs. Go fixes
  no iteration order, so every statement below is made for an arbitrary list.
* Each operation is one atomic step (the sequential semantics of the code); the
  mutex calls are modelled separately as the event trace an operation emits.
* A run-time panic on an index out of range is an explicit result (`none`, or a
  constructor of `ReplResult`); an input line is taken to be valid UTF-8.
-/

namespace Pokecache

/-- One byte. -/
abbrev Byte := Fin 256

/-- Go `[]byte`: `none` is nil. -/
abbrev ByteSlice := Option (List Byte)

/-- Go `time.Time`, as an instant counted in clock units. -/
abbrev Time := Int

/-- Go `time.Duration`, in the same clock units. -/
abbrev Duration := Int

/-- Go `type cacheEntry struct { createdAt time.Time; val []byte }`. -/
structure cacheEntry where
  createdAt : Time
  val : ByteSlice
deriving DecidableEq, Repr

/-- Zero value of `cacheEntry`, which indexing a map yields for an absent key. -/
def cacheEntry.zero : cacheEntry := ⟨0, none⟩

/-- Go `map[string]cacheEntry`. -/
abbrev GoMap := List (String × cacheEntry)

/-- Go `delete(m, key)`. -/
def mapDelete (m : GoMap) (key : String) : GoMap :=
  m.filter (fun p => p.1 != key)

/-- Go `m[key] = e`: the entry of `key` is replaced. -/
def mapAssign (m : GoMap) (key : String) (e : cacheEntry) : GoMap :=
  (key, e) :: mapDelete m key

/-- Go `m[key]` as a lookup: the first pair with that key. -/
def mapLookup : GoMap → String → Option cacheEntry
  | [], _ => none
  | (k, e) :: rest, key => if k = key then some e else mapLookup rest key

/-- Go `entry, ok := m[key]`: the zero entry and `false` when the key is absent. -/
def mapIndex (m : GoMap) (key : String) : cacheEntry × Bool :=
  match mapLookup m key with
  | some e => (e, true)
  | none => (cacheEntry.zero, false)

/-- Go `type Cache struct { mux sync.RWMutex; cacheMap map[string]cacheEntry;
interval time.Duration }`; the mutex carries no data in the sequential semantics. -/
structure Cache where
  cacheMap : GoMap
  interval : Duration
deriving DecidableEq, Repr

/-- Go `NewCache(interval)`: an empty map and the given interval. The goroutine it starts
runs `reapLoop`, whose sweeps are the `reapSweep` steps below. -/
def NewCache (interval : Duration) : Cache :=
  { cacheMap := [], interval := interval }

/-- Go `(c *Cache).Add(key, val)`, with `now` the value of `time.Now()`. -/
def Cache.Add (c : Cache) (now : Time) (key : String) (val : ByteSlice) : Cache :=
  { c with cacheMap := mapAssign c.cacheMap key { createdAt := now, val := val } }

/-- Go `(c *Cache).Get(key)`: `entry, ok := c.cacheMap[key]; return entry.val, ok`. -/
def Cache.Get (c : Cache) (key : String) : ByteSlice × Bool :=
  let r := mapIndex c.cacheMap key
  (r.1.val, r.2)

/-- One iteration of the `range` body of `reapLoop`:
`if entry.createdAt.After(limit) { delete(c.cacheMap, key) }`. -/
def reapBody (limit : Time) (m : GoMap) (p : String × cacheEntry) : GoMap :=
  if limit < p.2.createdAt then mapDelete m p.1 else m

/-- One pass of the outer `for` of `reapLoop`, with `now` the value of `time.Now()`:
`limit := time.Now().Add(-c.interval)`, then the `range` over `c.cacheMap`. The loop
deletes only the key it is visiting, so it visits exactly the pairs the map held when
the pass began. -/
def Cache.reapSweep (c : Cache) (now : Time) : Cache :=
  let limit := now + -c.interval
  { c with cacheMap := c.cacheMap.foldl (reapBody limit) c.cacheMap }

/-- A list stands for a Go map when no key occurs twice in it. -/
def NodupKeys (m : GoMap) : Prop :=
  (m.map Prod.fst).Nodup

/-! ## Histories of operations -/

/-- A step taken on the cache: a call of `Add` at clock time `now`, or one sweep of the
reaper at clock time `now`. -/
inductive Op where
  | add (now : Time) (key : String) (val : ByteSlice)
  | sweep (now : Time)
deriving DecidableEq, Repr

/-- Whether the step is an `Add` on `key`. -/
def Op.addsKey : Op → String → Bool
  | .add _ k _, key => k == key
  | .sweep _, _ => false

/-- Effect of one step. -/
def step (c : Cache) : Op → Cache
  | .add now key val => c.Add now key val
  | .sweep now => c.reapSweep now

/-- Effect of a history of steps, oldest first. -/
def run (c : Cache) (ops : List Op) : Cache :=
  ops.foldl step c

/-- The entry written by the most recent `Add` on `key` in a history (oldest first),
as the timestamp invariant words it: the time and the value of the last insert. -/
def lastAdd (key : String) (ops : List Op) : Option cacheEntry :=
  ops.foldl (fun acc op =>
    match op with
    | .add now k v => if k = key then some { createdAt := now, val := v } else acc
    | .sweep _ => acc) none

/-! ## Lock and map events -/

/-- What an operation does to the mutex and to the map, in program order. -/
inductive Event where
  | lock
  | unlock
  | rLock
  | rUnlock
  | mapRead (key : String)
  | mapWrite (key : String)
  | mapRange
  | mapDel (key : String)
  | tickerWait
deriving DecidableEq, Repr

/-- State of the `sync.RWMutex` as seen by the running operation. -/
inductive LockState where
  | free
  | reading
  | writing
deriving DecidableEq, Repr

/-- Events of `Add`: `c.mux.Lock()`, the map assignment, `c.mux.Unlock()`. -/
def AddEvents (key : String) : List Event :=
  [.lock, .mapWrite key, .unlock]

/-- Events of `Get`: `c.mux.RLock()`, the map index, `c.mux.RUnlock()`. -/
def GetEvents (key : String) : List Event :=
  [.rLock, .mapRead key, .rUnlock]

/-- Events of one visit of the `range` body of `reapLoop`: the `range` reads the next
pair, and the body deletes it when `entry.createdAt.After(limit)`. -/
def reapBodyEvents (limit : Time) (p : String × cacheEntry) : List Event :=
  if limit < p.2.createdAt then [.mapRange, .mapDel p.1] else [.mapRange]

/-- Events of one pass of the outer `for` of `reapLoop`: the `range` over the map (one
read to begin and end it, then the visits), then `<-ticker.C`. The function calls
neither `c.mux.Lock()` nor `c.mux.Unlock()`. -/
def reapSweepEvents (c : Cache) (now : Time) : List Event :=
  let limit := now + -c.interval
  [.mapRange] ++ (c.cacheMap.map (reapBodyEvents limit)).flatten ++ [.tickerWait]

/-- Whether every map access of a trace happens under the write lock, the trace starting
in lock state `s`. -/
def underWriteLock : LockState → List Event → Bool
  | _, [] => true
  | _, .lock :: rest => underWriteLock .writing rest
  | _, .unlock :: rest => underWriteLock .free rest
  | _, .rLock :: rest => underWriteLock .reading rest
  | _, .rUnlock :: rest => underWriteLock .free rest
  | s, .tickerWait :: rest => underWriteLock s rest
  | s, _ :: rest => decide (s = .writing) && underWriteLock s rest

/-- Whether every map access of a trace happens under a lock that allows it: a read
under the read or the write lock, a write or delete under the write lock. -/
def lockDisciplined : LockState → List Event → Bool
  | _, [] => true
  | _, .lock :: rest => lockDisciplined .writing rest
  | _, .unlock :: rest => lockDisciplined .free rest
  | _, .rLock :: rest => lockDisciplined .reading rest
  | _, .rUnlock :: rest => lockDisciplined .free rest
  | s, .tickerWait :: rest => lockDisciplined s rest
  | s, .mapRead _ :: rest => decide (s ≠ .free) && lockDisciplined s rest
  | s, .mapRange :: rest => decide (s ≠ .free) && lockDisciplined s rest
  | s, .mapWrite _ :: rest => decide (s = .writing) && lockDisciplined s rest
  | s, .mapDel _ :: rest => decide (s = .writing) && lockDisciplined s rest

/-! ## The fetch helpers of `main.go` -/

/-- The network as the helpers use it: `http.Get(url)` yields a response or an error,
and `io.ReadAll(resp.Body)` yields the body bytes or an error. -/
structure Net (Resp : Type) where
  httpGet : String → Except String Resp
  readAll : Resp → Except String ByteSlice

/-- What a helper did up to its call of `json.Unmarshal`: the cache afterwards, the URLs
passed to `http.Get`, the bytes passed to `json.Unmarshal` (`none` when the helper
returned before decoding) and the error it returned before decoding, if any. -/
structure FetchResult where
  cache : Cache
  requests : List String
  decoded : Option ByteSlice
  err : Option String
deriving DecidableEq, Repr

/-- The block shared word for word by `exploreArea`, `catchPokemon` and `commandMap`:
`cacheEntry, ok := config.Cache.Get(url)`; on `ok` the cached bytes are used, otherwise
`http.Get`, `io.ReadAll` and `config.Cache.Add(url, pokeData)`, returning on an error. -/
def fetchThroughCache {Resp : Type} (net : Net Resp) (c : Cache) (now : Time)
    (url : String) : FetchResult :=
  let r := c.Get url
  if r.2 then
    { cache := c, requests := [], decoded := some r.1, err := none }
  else
    match net.httpGet url with
    | .error e => { cache := c, requests := [url], decoded := none, err := some e }
    | .ok resp =>
      match net.readAll resp with
      | .error e => { cache := c, requests := [url], decoded := none, err := some e }
      | .ok pokeData =>
        { cache := c.Add now url pokeData, requests := [url], decoded := some pokeData,
          err := none }

/-- URL built by `exploreArea`. -/
def exploreURL (area : String) : String :=
  "https://pokeapi.co/api/v2/location-area/" ++ area ++ "/"

/-- URL built by `catchPokemon`. -/
def catchURL (pokemon : String) : String :=
  "https://pokeapi.co/api/v2/pokemon/" ++ pokemon ++ "/"

/-- URL used by `commandMap`: `config.Next`, or the default when it is nil. -/
def mapURL (next : Option String) : String :=
  match next with
  | some url => url
  | none => "https://pokeapi.co/api/v2/location-area/?limit=20"

/-- Go `exploreArea(config, area)`, up to its call of `json.Unmarshal`. -/
def exploreArea {Resp : Type} (net : Net Resp) (c : Cache) (now : Time)
    (area : String) : FetchResult :=
  fetchThroughCache net c now (exploreURL area)

/-- Go `catchPokemon(config, pokemon)`, up to its call of `json.Unmarshal`. -/
def catchPokemon {Resp : Type} (net : Net Resp) (c : Cache) (now : Time)
    (pokemon : String) : FetchResult :=
  fetchThroughCache net c now (catchURL pokemon)

/-- Go `commandMap(config)`, up to its call of `json.Unmarshal`; `next` is
`config.Next`. -/
def commandMap {Resp : Type} (net : Net Resp) (c : Cache) (now : Time)
    (next : Option String) : FetchResult :=
  fetchThroughCache net c now (mapURL next)

/-- A call of one of the three fetch helpers. -/
inductive Helper where
  | explore (area : String)
  | catch (pokemon : String)
  | map (next : Option String)
deriving DecidableEq, Repr

/-- URL the call asks for. -/
def Helper.url : Helper → String
  | .explore area => exploreURL area
  | .catch pokemon => catchURL pokemon
  | .map next => mapURL next

/-- The call, run on a cache at clock time `now`. -/
def Helper.call {Resp : Type} (h : Helper) (net : Net Resp) (c : Cache)
    (now : Time) : FetchResult :=
  match h with
  | .explore area => exploreArea net c now area
  | .catch pokemon => catchPokemon net c now pokemon
  | .map next => commandMap net c now next

/-! ## The command loop of `main.go` -/

/-- Go `unicode.IsSpace`, on which `strings.TrimSpace` decides what to cut. -/
def isSpace (c : Char) : Bool :=
  let n := c.toNat
  n == 9 || n == 10 || n == 11 || n == 12 || n == 13 || n == 32 || n == 0x85 || n == 0xA0
    || n == 0x1680 || (0x2000 ≤ n && n ≤ 0x200A) || n == 0x2028 || n == 0x2029
    || n == 0x202F || n == 0x205F || n == 0x3000

/-- Go `strings.TrimSpace(s)`: the leading and the trailing white space is cut. -/
def TrimSpace (s : String) : String :=
  String.mk ((s.data.dropWhile isSpace).reverse.dropWhile isSpace).reverse

/-- Go `strings.Split(s, " ")` on the characters of `s`: one piece more than there are
spaces, pieces between adjacent spaces being empty. -/
def splitOnSpace : List Char → List (List Char)
  | [] => [[]]
  | c :: cs =>
    if c.toNat = 32 then [] :: splitOnSpace cs
    else
      match splitOnSpace cs with
      | [] => [[c]]
      | w :: ws => (c :: w) :: ws

/-- Go `strings.Split(s, " ")`. -/
def Split (s : String) : List String :=
  (splitOnSpace s.data).map String.mk

/-- The function a callback of `getCommands` goes on to call, with its arguments. -/
inductive Call where
  | commandHelp
  | commandExit
  | commandMap
  | commandMapb
  | exploreArea (area : String)
  | catchPokemon (pokemon : String)
  | inspectPokemon (pokemon : String)
  | getPokedex
deriving DecidableEq, Repr

/-- Go `params[0]` on the variadic parameter list: `none` is the run-time panic
`index out of range [0] with length 0`. -/
def paramsIndex0 (params : List String) : Option String :=
  match params with
  | [] => none
  | p :: _ => some p

/-- Go `getCommands(config)`: the map from command word to callback. A callback takes the
parameter list and yields the call it makes, or `none` when it panics on `params[0]`.
`help`, `exit`, `map`, `mapb` and `pokedex` do not read `params`; `explore`, `catch`
and `inspect` begin with `params[0]`. -/
def getCommands : List (String × (List String → Option Call)) :=
  [ ("help", fun _ => some .commandHelp),
    ("exit", fun _ => some .commandExit),
    ("map", fun _ => some .commandMap),
    ("mapb", fun _ => some .commandMapb),
    ("explore", fun params => (paramsIndex0 params).map Call.exploreArea),
    ("catch", fun params => (paramsIndex0 params).map Call.catchPokemon),
    ("inspect", fun params => (paramsIndex0 params).map Call.inspectPokemon),
    ("pokedex", fun _ => some .getPokedex) ]

/-- Go `command, ok := commands[word]`. -/
def commandLookup (commands : List (String × (List String → Option Call)))
    (word : String) : Option (List String → Option Call) :=
  match commands with
  | [] => none
  | (k, cb) :: rest => if k = word then some cb else commandLookup rest word

/-- What one pass of the loop of `repl` does with the line it read. -/
inductive ReplResult where
  | indexPanic
  | unknownCommand
  | callbackPanic
  | called (c : Call)
deriving DecidableEq, Repr

/-- One pass of the `for` of `repl` on the line `scanner.Text()` gave: trim, split on
spaces, look `inputSlice[0]` up (`indexPanic` when the slice is empty), and call the
callback with `inputSlice[1:]` when `len(inputSlice) > 1`, with no argument otherwise. -/
def replLine (commands : List (String × (List String → Option Call)))
    (line : String) : ReplResult :=
  let input := TrimSpace line
  let inputSlice := Split input
  match inputSlice with
  | [] => .indexPanic
  | word :: rest =>
    match commandLookup commands word with
    | some callback =>
      let r := if inputSlice.length > 1 then callback rest else callback []
      match r with
      | some c => .called c
      | none => .callbackPanic
    | none => .unknownCommand

/-! ## Concrete inputs -/

/-- A network that answers every request with the two bytes `7, 9`. -/
def netConst : Net ByteSlice where
  httpGet := fun _ => .ok (some [7, 9])
  readAll := fun resp => .ok resp

/-- The scenario of the expiry test: interval 50, `Add("X", [1,2,3])` at time 0, with the
sweeps of the reaper at times 0 (when the cache is built), 50 and 100. -/
def expiryHistory : List Op :=
  [.sweep 0, .add 0 "X" (some [1, 2, 3]), .sweep 50, .sweep 100]

/-- A history with two keys, interval 50: `a` written at time 0, `b` written at time 110,
sweeps at times 0, 50, 100 and 150. -/
def twoKeyHistory : List Op :=
  [.sweep 0, .add 0 "a" (some [1]), .sweep 50, .sweep 100, .add 110 "b" (some [2]),
    .sweep 150]

/-! ## Lemmas on the map -/

theorem mapDelete_cons (p : String × cacheEntry) (rest : GoMap) (key : String) :
    mapDelete (p :: rest) key = if p.1 = key then mapDelete rest key
      else p :: mapDelete rest key := by
  by_cases h : p.1 = key <;> simp [mapDelete, List.filter_cons, h]

theorem mapLookup_mapDelete (m : GoMap) (key k : String) :
    mapLookup (mapDelete m key) k = if k = key then none else mapLookup m k := by
  induction m with
  | nil => simp [mapDelete, mapLookup]
  | cons p rest ih =>
    obtain ⟨a, e⟩ := p
    rw [mapDelete_cons]
    by_cases ha : a = key
    · by_cases hk : k = key
      · subst hk; simpa [ha] using ih
      · have hk2 : ¬ key = k := fun h => hk h.symm
        simp [ha, hk, hk2, ih, mapLookup]
    · by_cases hak : a = k
      · have hk : ¬ k = key := fun h => ha (hak.trans h)
        simp [ha, hak, hk, mapLookup]
      · simp [ha, hak, ih, mapLookup]

theorem mapLookup_mapAssign (m : GoMap) (key k : String) (e : cacheEntry) :
    mapLookup (mapAssign m key e) k = if k = key then some e else mapLookup m k := by
  by_cases hk : k = key
  · subst hk; simp [mapAssign, mapLookup]
  · have hk2 : ¬ key = k := fun h => hk h.symm
    simp [mapAssign, mapLookup, hk, hk2, mapLookup_mapDelete]

theorem mapIndex_of_lookup_some (m : GoMap) (k : String) (e : cacheEntry)
    (h : mapLookup m k = some e) : mapIndex m k = (e, true) := by
  simp [mapIndex, h]

theorem mapIndex_of_lookup_none (m : GoMap) (k : String)
    (h : mapLookup m k = none) : mapIndex m k = (cacheEntry.zero, false) := by
  simp [mapIndex, h]

theorem Get_of_lookup_some (c : Cache) (k : String) (e : cacheEntry)
    (h : mapLookup c.cacheMap k = some e) : c.Get k = (e.val, true) := by
  simp [Cache.Get, mapIndex_of_lookup_some _ _ _ h]

theorem Get_of_lookup_none (c : Cache) (k : String)
    (h : mapLookup c.cacheMap k = none) : c.Get k = (none, false) := by
  simp [Cache.Get, mapIndex_of_lookup_none _ _ h, cacheEntry.zero]

theorem Get_Add_same (c : Cache) (now : Time) (k : String) (v : ByteSlice) :
    (c.Add now k v).Get k = (v, true) := by
  simp [Cache.Add, Cache.Get, mapIndex, mapLookup_mapAssign]

theorem lookup_of_Get_true (c : Cache) (k : String) (b : ByteSlice)
    (h : c.Get k = (b, true)) : ∃ e, mapLookup c.cacheMap k = some e ∧ e.val = b := by
  cases hl : mapLookup c.cacheMap k with
  | none => rw [Get_of_lookup_none c k hl] at h; simp at h
  | some e =>
    rw [Get_of_lookup_some c k e hl] at h
    exact ⟨e, rfl, by simpa using h⟩

/-! ## Lemmas on the sweep -/

/-- Lookup after the `range` loop run over the pairs `l` on the map `acc`: a key is gone
when some visited pair with that key is newer than `limit`, and untouched otherwise. -/
theorem mapLookup_foldl_reapBody (limit : Time) (l : List (String × cacheEntry))
    (acc : GoMap) (k : String) :
    mapLookup (l.foldl (reapBody limit) acc) k =
      if (∃ p ∈ l, p.1 = k ∧ limit < p.2.createdAt) then none else mapLookup acc k := by
  induction l generalizing acc with
  | nil => simp
  | cons p rest ih =>
    rw [List.foldl_cons, ih]
    by_cases hrest : ∃ q ∈ rest, q.1 = k ∧ limit < q.2.createdAt
    · have hall : ∃ q ∈ p :: rest, q.1 = k ∧ limit < q.2.createdAt := by
        obtain ⟨q, hq, hq2⟩ := hrest
        exact ⟨q, List.mem_cons_of_mem _ hq, hq2⟩
      rw [if_pos hrest, if_pos hall]
    · rw [if_neg hrest]
      by_cases hp : p.1 = k ∧ limit < p.2.createdAt
      · have hall : ∃ q ∈ p :: rest, q.1 = k ∧ limit < q.2.createdAt :=
          ⟨p, List.mem_cons_self _ _, hp⟩
        rw [if_pos hall]
        simp [reapBody, hp.2, mapLookup_mapDelete, hp.1]
      · have hall : ¬ ∃ q ∈ p :: rest, q.1 = k ∧ limit < q.2.createdAt := by
          rintro ⟨q, hq, hq2⟩
          rcases List.mem_cons.1 hq with h | h
          · exact hp (h ▸ hq2)
          · exact hrest ⟨q, h, hq2⟩
        rw [if_neg hall]
        unfold reapBody
        by_cases hlt : limit < p.2.createdAt
        · have hk : ¬ k = p.1 := fun h => hp ⟨h.symm, hlt⟩
          simp [hlt, mapLookup_mapDelete, hk]
        · simp [hlt]

/-- A sweep never makes a lookup succeed that failed before, nor changes what it finds. -/
theorem mapLookup_reapSweep_some (c : Cache) (now : Time) (k : String) (e : cacheEntry)
    (h : mapLookup (c.reapSweep now).cacheMap k = some e) :
    mapLookup c.cacheMap k = some e := by
  unfold Cache.reapSweep at h
  simp only [mapLookup_foldl_reapBody] at h
  split at h
  · cases h
  · exact h

theorem mapLookup_reapSweep_none (c : Cache) (now : Time) (k : String)
    (h : mapLookup c.cacheMap k = none) :
    mapLookup (c.reapSweep now).cacheMap k = none := by
  cases hl : mapLookup (c.reapSweep now).cacheMap k with
  | none => rfl
  | some e => rw [mapLookup_reapSweep_some c now k e hl] at h; cases h

theorem mapDelete_sublist (m : GoMap) (key : String) : (mapDelete m key).Sublist m :=
  List.filter_sublist m

theorem foldl_reapBody_sublist (limit : Time) (l : List (String × cacheEntry))
    (acc : GoMap) : (l.foldl (reapBody limit) acc).Sublist acc := by
  induction l generalizing acc with
  | nil => exact List.Sublist.refl _
  | cons p rest ih =>
    rw [List.foldl_cons]
    refine (ih _).trans ?_
    unfold reapBody
    split
    · exact mapDelete_sublist _ _
    · exact List.Sublist.refl _

/-! ## Lemmas on histories -/

theorem run_append_singleton (c : Cache) (ops : List Op) (op : Op) :
    run c (ops ++ [op]) = step (run c ops) op := by
  simp [run, List.foldl_append]

theorem lastAdd_append_add (key : String) (ops : List Op) (now : Time) (k : String)
    (v : ByteSlice) :
    lastAdd key (ops ++ [Op.add now k v]) =
      if k = key then some { createdAt := now, val := v } else lastAdd key ops := by
  simp [lastAdd, List.foldl_append]

theorem lastAdd_append_sweep (key : String) (ops : List Op) (now : Time) :
    lastAdd key (ops ++ [Op.sweep now]) = lastAdd key ops := by
  simp [lastAdd, List.foldl_append]

theorem run_interval (c : Cache) (ops : List Op) : (run c ops).interval = c.interval := by
  induction ops using List.reverseRecOn with
  | nil => rfl
  | append_singleton ops op ih =>
    rw [run_append_singleton]
    cases op <;> simpa [step, Cache.Add, Cache.reapSweep] using ih

/-- Lookup of a key no `Add` of the history names stays what it was. -/
theorem mapLookup_run_none (c : Cache) (k : String) (ops : List Op)
    (hc : mapLookup c.cacheMap k = none) (h : ∀ op ∈ ops, op.addsKey k = false) :
    mapLookup (run c ops).cacheMap k = none := by
  induction ops using List.reverseRecOn with
  | nil => exact hc
  | append_singleton ops op ih =>
    rw [run_append_singleton]
    have ih2 := ih (fun o ho => h o (List.mem_append_left _ ho))
    have hop := h op (by simp)
    cases op with
    | add now key val =>
      have hk : ¬ k = key := by
        intro hk
        simp [Op.addsKey, hk] at hop
      simp [step, Cache.Add, mapLookup_mapAssign, hk, ih2]
    | sweep now => exact mapLookup_reapSweep_none _ now k ih2

theorem mapLookup_run_lastAdd (interval : Duration) (ops : List Op) (key : String)
    (e : cacheEntry) (h : mapLookup (run (NewCache interval) ops).cacheMap key = some e) :
    lastAdd key ops = some e := by
  induction ops using List.reverseRecOn generalizing e with
  | nil => simp [run, NewCache, mapLookup] at h
  | append_singleton ops op ih =>
    rw [run_append_singleton] at h
    cases op with
    | add now k v =>
      rw [lastAdd_append_add]
      simp only [step, Cache.Add, mapLookup_mapAssign] at h
      by_cases hk : key = k
      · rw [if_pos hk] at h
        rw [if_pos hk.symm]
        exact h
      · rw [if_neg hk] at h
        rw [if_neg (fun hh => hk hh.symm)]
        exact ih e h
    | sweep now =>
      rw [lastAdd_append_sweep]
      exact ih e (mapLookup_reapSweep_some _ now key e h)

/-! ## Lists without repeated keys -/

theorem mem_of_mapLookup (m : GoMap) (k : String) (e : cacheEntry)
    (h : mapLookup m k = some e) : (k, e) ∈ m := by
  induction m with
  | nil => simp [mapLookup] at h
  | cons p rest ih =>
    obtain ⟨a, x⟩ := p
    by_cases ha : a = k
    · simp [mapLookup, ha] at h
      simp [ha, h]
    · simp [mapLookup, ha] at h
      exact List.mem_cons_of_mem _ (ih h)

theorem mapLookup_of_mem (m : GoMap) (hn : NodupKeys m) (k : String) (e : cacheEntry)
    (h : (k, e) ∈ m) : mapLookup m k = some e := by
  induction m with
  | nil => simp at h
  | cons p rest ih =>
    obtain ⟨a, x⟩ := p
    have hn2 : a ∉ rest.map Prod.fst ∧ NodupKeys rest := by
      simpa [NodupKeys] using hn
    rcases List.mem_cons.1 h with h1 | h1
    · cases h1
      simp [mapLookup]
    · have hak : ¬ a = k := by
        intro hak
        exact hn2.1 (List.mem_map.2 ⟨(k, e), h1, hak.symm⟩)
      simp [mapLookup, hak, ih hn2.2 h1]

theorem NodupKeys_mapDelete (m : GoMap) (key : String) (hn : NodupKeys m) :
    NodupKeys (mapDelete m key) :=
  List.Nodup.sublist ((mapDelete_sublist m key).map Prod.fst) hn

theorem NodupKeys_mapAssign (m : GoMap) (key : String) (e : cacheEntry)
    (hn : NodupKeys m) : NodupKeys (mapAssign m key e) := by
  have h1 : key ∉ (mapDelete m key).map Prod.fst := by
    simp [mapDelete]
  have h2 := NodupKeys_mapDelete m key hn
  unfold NodupKeys at h2 ⊢
  simpa [mapAssign] using ⟨by simpa using h1, h2⟩

theorem NodupKeys_reapSweep (c : Cache) (now : Time) (hn : NodupKeys c.cacheMap) :
    NodupKeys (c.reapSweep now).cacheMap :=
  List.Nodup.sublist ((foldl_reapBody_sublist _ _ _).map Prod.fst) hn

/-- Every state reached from a new cache holds each key at most once. -/
theorem NodupKeys_run (interval : Duration) (ops : List Op) :
    NodupKeys (run (NewCache interval) ops).cacheMap := by
  induction ops using List.reverseRecOn with
  | nil => simp [run, NewCache, NodupKeys]
  | append_singleton ops op ih =>
    rw [run_append_singleton]
    cases op with
    | add now key val => exact NodupKeys_mapAssign _ key _ ih
    | sweep now => exact NodupKeys_reapSweep _ now ih

/-- What a sweep does to a key that holds an entry: the entry goes when it is newer than
the cutoff `now - interval`, and stays when it is on or before the cutoff. -/
theorem mapLookup_reapSweep_of_nodup (c : Cache) (now : Time) (k : String)
    (e : cacheEntry) (hn : NodupKeys c.cacheMap) (h : mapLookup c.cacheMap k = some e) :
    mapLookup (c.reapSweep now).cacheMap k
      = if now - c.interval < e.createdAt then none else some e := by
  unfold Cache.reapSweep
  simp only [mapLookup_foldl_reapBody]
  have hiff : (∃ p ∈ c.cacheMap, p.1 = k ∧ now + -c.interval < p.2.createdAt)
      ↔ now - c.interval < e.createdAt := by
    constructor
    · rintro ⟨⟨a, x⟩, hp, hk, hlt⟩
      simp only at hk hlt
      subst hk
      have := mapLookup_of_mem _ hn a x hp
      rw [h] at this
      cases this
      simpa [sub_eq_add_neg] using hlt
    · intro hlt
      exact ⟨(k, e), mem_of_mapLookup _ k e h, rfl, by simpa [sub_eq_add_neg] using hlt⟩
  by_cases hlt : now - c.interval < e.createdAt
  · rw [if_pos (hiff.2 hlt), if_pos hlt]
  · rw [if_neg (fun hh => hlt (hiff.1 hh)), if_neg hlt, h]

/-! ## Round trip and overwrite -/

/-- C1: for every cache state, key and payload (the empty key and the nil or empty payload
included), `Add(k, v)` followed at once by `Get(k)` returns `(v, true)`. -/
theorem Add_Get_roundtrip (c : Cache) (now : Time) (k : String) (v : ByteSlice) :
    (c.Add now k v).Get k = (v, true) :=
  Get_Add_same c now k v

/-- C4: for every cache state, key and payloads `v1`, `v2`, after `Add(k, v1)` and
`Add(k, v2)` the call `Get(k)` returns `(v2, true)`. -/
theorem Add_Add_Get_overwrite (c : Cache) (t1 t2 : Time) (k : String) (v1 v2 : ByteSlice) :
    ((c.Add t1 k v1).Add t2 k v2).Get k = (v2, true) := by
  simp [Cache.Add, Cache.Get, mapIndex, mapLookup_mapAssign]

/-! ## The sweep -/

/-- C2 (the code departs from it): in the expiry scenario (interval 50, `Add("X", [1,2,3])`
at time 0) the entry is on or before the cutoff of the sweeps at times 50 and 100, yet
`Get("X")` still finds it after them, and after one more sweep at time 120. -/
theorem reapSweep_keeps_expired_entry :
    (run (NewCache 50) expiryHistory).Get "X" = (some [1, 2, 3], true) ∧
    ((run (NewCache 50) expiryHistory).reapSweep 120).Get "X" = (some [1, 2, 3], true) := by
  decide

/-- C3 (the code departs from it): with interval 50, key `b` written at time 110 has age
40 at the sweep of time 150, yet that sweep removes it, while the older key `a`, written
at time 0, is kept. -/
theorem reapSweep_drops_fresh_entry :
    (run (NewCache 50) twoKeyHistory).Get "b" = (none, false) ∧
    (run (NewCache 50) twoKeyHistory).Get "a" = (some [1], true) := by
  decide

/-! ## Misses, staleness and timestamps -/

/-- C5: from a new cache, after any history of `Add` calls on keys other than `k` and of
sweeps, `Get(k)` returns the nil value and `found = false`. -/
theorem Get_miss_unknown_key (interval : Duration) (k : String) (ops : List Op)
    (h : ∀ op ∈ ops, op.addsKey k = false) :
    (run (NewCache interval) ops).Get k = (none, false) :=
  Get_of_lookup_none _ k (mapLookup_run_none (NewCache interval) k ops rfl h)

theorem Get_miss_unknown_key_witness :
    (∀ op ∈ twoKeyHistory, op.addsKey "c" = false) ∧
    (run (NewCache 50) twoKeyHistory).Get "c" = (none, false) :=
  ⟨by decide, Get_miss_unknown_key 50 "c" twoKeyHistory (by decide)⟩

/-- C6: when key `k` holds the entry `e`, `Get(k)` returns `(e.val, true)` whatever
`e.createdAt` and the interval are; `Get` takes no clock reading, and any other cache
holding under `k` an entry with the same value, of any age and under any interval, gives
the same result. -/
theorem Get_ignores_freshness (c : Cache) (k : String) (e : cacheEntry)
    (h : mapLookup c.cacheMap k = some e) :
    c.Get k = (e.val, true) ∧
    ∀ (c2 : Cache) (t : Time), mapLookup c2.cacheMap k = some { createdAt := t, val := e.val } →
      c2.Get k = c.Get k := by
  refine ⟨Get_of_lookup_some c k e h, ?_⟩
  intro c2 t h2
  rw [Get_of_lookup_some c k e h, Get_of_lookup_some c2 k _ h2]

theorem Get_ignores_freshness_witness :
    mapLookup ((NewCache 50).Add 0 "X" (some [1, 2, 3])).cacheMap "X"
      = some { createdAt := 0, val := some [1, 2, 3] } ∧
    ((NewCache 50).Add 0 "X" (some [1, 2, 3])).Get "X" = (some [1, 2, 3], true) :=
  ⟨by decide,
    (Get_ignores_freshness ((NewCache 50).Add 0 "X" (some [1, 2, 3])) "X"
      { createdAt := 0, val := some [1, 2, 3] } (by decide)).1⟩

/-- C7: `Add(k, v)` at clock time `t` leaves exactly one pair for `k` in the map, the
entry with `createdAt = t` and `val = v`; and in every state reached from a new cache by
`Add` calls and sweeps, an entry present under a key is the one written by the most
recent `Add` on that key. -/
theorem Add_timestamp_invariant (c : Cache) (t : Time) (k : String) (v : ByteSlice)
    (interval : Duration) (ops : List Op) (key : String) (e : cacheEntry)
    (h : mapLookup (run (NewCache interval) ops).cacheMap key = some e) :
    (c.Add t k v).cacheMap.filter (fun p => p.1 == k) = [(k, { createdAt := t, val := v })] ∧
    mapLookup (c.Add t k v).cacheMap k = some { createdAt := t, val := v } ∧
    lastAdd key ops = some e := by
  refine ⟨?_, ?_, mapLookup_run_lastAdd interval ops key e h⟩
  · simp [Cache.Add, mapAssign, mapDelete, List.filter_cons, List.filter_filter]
  · simp [Cache.Add, mapLookup_mapAssign]

theorem Add_timestamp_invariant_witness :
    mapLookup (run (NewCache 50) twoKeyHistory).cacheMap "a"
      = some { createdAt := 0, val := some [1] } ∧
    mapLookup ((NewCache 50).Add 7 "a" none).cacheMap "a"
      = some { createdAt := 7, val := none } ∧
    lastAdd "a" twoKeyHistory = some { createdAt := 0, val := some [1] } :=
  ⟨by decide,
    (Add_timestamp_invariant (NewCache 50) 7 "a" none 50 twoKeyHistory "a"
      { createdAt := 0, val := some [1] } (by decide)).2⟩

/-! ## Frame of the sweep -/

/-- C8: after a sweep the interval is unchanged, the map is a sub-list of the map before,
and every key is either absent or holds the very entry it held before. -/
theorem reapSweep_only_deletes (c : Cache) (now : Time) :
    (c.reapSweep now).interval = c.interval ∧
    (c.reapSweep now).cacheMap.Sublist c.cacheMap ∧
    ∀ k, mapLookup (c.reapSweep now).cacheMap k = none ∨
      mapLookup (c.reapSweep now).cacheMap k = mapLookup c.cacheMap k := by
  refine ⟨rfl, foldl_reapBody_sublist _ _ _, ?_⟩
  intro k
  cases hl : mapLookup (c.reapSweep now).cacheMap k with
  | none => exact Or.inl rfl
  | some e => exact Or.inr (mapLookup_reapSweep_some c now k e hl).symm

/-! ## Locking -/

/-- C9 (the code departs from it): whatever the cache holds and whatever the time, the
map accesses of a sweep of `reapLoop` are not made under the write lock, nor under any
lock: it reads the map with the mutex free. `Add` does hold the write lock for its
assignment and `Get` the read lock for its lookup. -/
theorem reapSweep_holds_no_lock :
    (∀ (c : Cache) (now : Time), underWriteLock .free (reapSweepEvents c now) = false) ∧
    (∀ (c : Cache) (now : Time), lockDisciplined .free (reapSweepEvents c now) = false) ∧
    (∀ key : String, underWriteLock .free (AddEvents key) = true) ∧
    (∀ key : String, lockDisciplined .free (GetEvents key) = true) := by
  refine ⟨?_, ?_, ?_, ?_⟩
  · intro c now
    simp [reapSweepEvents, underWriteLock]
  · intro c now
    simp [reapSweepEvents, lockDisciplined]
  · intro key
    simp [AddEvents, underWriteLock]
  · intro key
    simp [GetEvents, lockDisciplined]

/-! ## The fetch helpers -/

theorem fetchThroughCache_hit {Resp : Type} (net : Net Resp) (c : Cache) (now : Time)
    (url : String) (b : ByteSlice) (h : c.Get url = (b, true)) :
    fetchThroughCache net c now url
      = { cache := c, requests := [], decoded := some b, err := none } := by
  simp [fetchThroughCache, h]

theorem fetchThroughCache_miss {Resp : Type} (net : Net Resp) (c : Cache) (now : Time)
    (url : String) (resp : Resp) (b : ByteSlice) (h : (c.Get url).2 = false)
    (hget : net.httpGet url = .ok resp) (hread : net.readAll resp = .ok b) :
    fetchThroughCache net c now url
      = { cache := c.Add now url b, requests := [url], decoded := some b, err := none } := by
  simp [fetchThroughCache, h, hget, hread]

theorem Helper.call_eq {Resp : Type} (h : Helper) (net : Net Resp) (c : Cache)
    (now : Time) : h.call net c now = fetchThroughCache net c now h.url := by
  cases h <;> rfl

/-- C10: for each of `exploreArea`, `catchPokemon` and `commandMap`: when `Cache.Get(url)`
returns `(b, true)` no request is issued, the cache is left as it was and the bytes given
to the decoder are `b`; when it returns `found = false` and the fetch yields `b2`, one
request is issued, `b2` is decoded and `Cache.Add(url, b2)` is performed, after which the
same call is a hit that decodes the same `b2` without a request. -/
theorem helper_cache_hit_avoids_network {Resp : Type} (net : Net Resp) (h : Helper)
    (c : Cache) (now : Time) :
    (∀ b, c.Get h.url = (b, true) →
      h.call net c now = { cache := c, requests := [], decoded := some b, err := none }) ∧
    (∀ x resp b2, c.Get h.url = (x, false) → net.httpGet h.url = .ok resp →
      net.readAll resp = .ok b2 →
      h.call net c now = { cache := c.Add now h.url b2, requests := [h.url],
                           decoded := some b2, err := none } ∧
      ∀ later, h.call net (c.Add now h.url b2) later
        = { cache := c.Add now h.url b2, requests := [], decoded := some b2,
            err := none }) := by
  refine ⟨?_, ?_⟩
  · intro b hb
    rw [Helper.call_eq]
    exact fetchThroughCache_hit net c now _ b hb
  · intro x resp b2 hx hget hread
    refine ⟨?_, ?_⟩
    · rw [Helper.call_eq]
      exact fetchThroughCache_miss net c now _ resp b2 (by rw [hx]) hget hread
    · intro later
      rw [Helper.call_eq]
      exact fetchThroughCache_hit net _ later _ b2 (Get_Add_same c now _ b2)

theorem helper_cache_hit_avoids_network_witness :
    (Helper.catch "mew").call netConst
        ((NewCache 50).Add 3 (catchURL "mew") (some [1, 2])) 10
      = { cache := (NewCache 50).Add 3 (catchURL "mew") (some [1, 2]), requests := [],
          decoded := some (some [1, 2]), err := none } ∧
    (Helper.map none).call netConst (NewCache 50) 10
      = { cache := (NewCache 50).Add 10 (mapURL none) (some [7, 9]),
          requests := [mapURL none], decoded := some (some [7, 9]), err := none } :=
  ⟨(helper_cache_hit_avoids_network netConst (.catch "mew")
      ((NewCache 50).Add 3 (catchURL "mew") (some [1, 2])) 10).1 (some [1, 2])
      (Get_Add_same _ _ _ _),
   ((helper_cache_hit_avoids_network netConst (.map none) (NewCache 50) 10).2
      none (some [7, 9]) (some [7, 9]) (by decide) rfl rfl).1⟩

/-! ## Frame of `Add` -/

/-- C11: for every cache state, payload and keys `k2` different from `k`, `Get(k2)` returns
the same value and the same `found` after `Add(k, v)` as before it, and the interval is
unchanged. -/
theorem Add_local_to_key (c : Cache) (now : Time) (k k2 : String) (v : ByteSlice)
    (h : k2 ≠ k) :
    (c.Add now k v).Get k2 = c.Get k2 ∧ (c.Add now k v).interval = c.interval := by
  refine ⟨?_, rfl⟩
  simp [Cache.Add, Cache.Get, mapIndex, mapLookup_mapAssign, h]

theorem Add_local_to_key_witness :
    "a" ≠ "b" ∧
    (((NewCache 50).Add 0 "a" (some [1])).Add 5 "b" none).Get "a"
      = ((NewCache 50).Add 0 "a" (some [1])).Get "a" ∧
    (((NewCache 50).Add 0 "a" (some [1])).Add 5 "b" none).interval
      = ((NewCache 50).Add 0 "a" (some [1])).interval :=
  ⟨by decide,
    Add_local_to_key ((NewCache 50).Add 0 "a" (some [1])) 5 "b" "a" none (by decide)⟩

/-! ## The command loop -/

theorem splitOnSpace_ne_nil (cs : List Char) : splitOnSpace cs ≠ [] := by
  cases cs with
  | nil => simp [splitOnSpace]
  | cons c rest =>
    unfold splitOnSpace
    split
    · simp
    · split <;> simp

theorem Split_ne_nil (s : String) : Split s ≠ [] := by
  simp [Split, splitOnSpace_ne_nil]

/-- The access `inputSlice[0]` of `repl` is in bounds on every line. -/
theorem replLine_ne_indexPanic (commands : List (String × (List String → Option Call)))
    (line : String) : replLine commands line ≠ .indexPanic := by
  unfold replLine
  simp only
  split
  · next h => exact absurd h (Split_ne_nil _)
  · split
    · split <;> simp
    · simp

/-- A callback of the command table does not panic when it is given an argument. -/
theorem callback_safe_with_argument (word : String) (callback : List String → Option Call)
    (p : String) (ps : List String) (h : commandLookup getCommands word = some callback) :
    callback (p :: ps) ≠ none := by
  simp only [getCommands, commandLookup] at h
  split_ifs at h <;> (cases h; simp [paramsIndex0])

/-- The callbacks of `help`, `exit`, `map`, `mapb` and `pokedex` do not panic on any
parameter list, the empty one included. -/
theorem callback_safe_of_no_params_read (word : String)
    (callback : List String → Option Call) (params : List String)
    (h : commandLookup getCommands word = some callback)
    (hw : word ≠ "explore" ∧ word ≠ "catch" ∧ word ≠ "inspect") :
    callback params ≠ none := by
  obtain ⟨h1, h2, h3⟩ := hw
  simp only [getCommands, commandLookup] at h
  split_ifs at h with g1 g2 g3 g4 g5 g6 g7 g8 <;> first
    | exact absurd g5.symm h1
    | exact absurd g6.symm h2
    | exact absurd g7.symm h3
    | (cases h; simp)

/-- C12 (the code departs from it): on the lines `explore`, `catch` and `inspect`, typed
without an argument, `repl` finds the command and calls its callback with no parameter,
and the callback reads `params[0]` of the empty list: an index out of range. -/
theorem repl_callback_panics_without_argument :
    replLine getCommands "explore" = .callbackPanic ∧
    replLine getCommands "catch" = .callbackPanic ∧
    replLine getCommands "inspect " = .callbackPanic := by
  decide

end Pokecache
